import Mathlib

/-!
Verification of the metrics-pipeline core of the `system-detection` repository.

The development shallowly embeds the TypeScript sources:
* `KernelMonitoringService.analyzeCpuPerformance` / `analyzeMemoryPressure`
  (kernel monitoring service module) over an idealized JavaScript number type
  `JSNum` (exact rationals extended with NaN and signed infinities; IEEE-754
  rounding and negative zero are not modelled, which is exact on the integer
  inputs considered here, and `0/0 = NaN` follows IEEE-754 as in JavaScript),
* `CircularBuffer`, `PerformanceMonitor`, `throttle`, `debounce`
  (`src/services/highPerfService.ts`),
* `useThrottledMetrics` (`src/hooks/useThrottledMetrics.ts`) and
  `useMetricsHistory` (`src/hooks/useMetricsHistory.ts`).
Timer-based code is embedded as a single-threaded event-loop model: scheduled
callbacks are explicit `(id, fireTime, args)` records, due timers fire before
a later event is processed, and `clearTimeout` removes a live timer.
-/

/-- Idealized JavaScript number: an exact rational, NaN, or an infinity. -/
inductive JSNum where
  | num (q : ℚ)
  | nan
  | posInf
  | negInf
deriving DecidableEq

/-- JavaScript division (`a / b`). `0/0` is NaN, `x/0` for `x ≠ 0` is a
signed infinity, as in IEEE-754. Negative zero is not modelled. -/
def jsDiv : JSNum → JSNum → JSNum
  | .nan, _ => .nan
  | _, .nan => .nan
  | .num a, .num b =>
      if b = 0 then (if a = 0 then .nan else if 0 < a then .posInf else .negInf)
      else .num (a / b)
  | .num _, .posInf => .num 0
  | .num _, .negInf => .num 0
  | .posInf, .num b => if 0 ≤ b then .posInf else .negInf
  | .negInf, .num b => if 0 ≤ b then .negInf else .posInf
  | .posInf, _ => .nan
  | .negInf, _ => .nan

/-- JavaScript addition; NaN propagates, opposite infinities give NaN. -/
def jsAdd : JSNum → JSNum → JSNum
  | .nan, _ => .nan
  | _, .nan => .nan
  | .num a, .num b => .num (a + b)
  | .posInf, .negInf => .nan
  | .negInf, .posInf => .nan
  | .posInf, _ => .posInf
  | _, .posInf => .posInf
  | .negInf, _ => .negInf
  | _, .negInf => .negInf

/-- JavaScript negation. -/
def jsNeg : JSNum → JSNum
  | .num a => .num (-a)
  | .nan => .nan
  | .posInf => .negInf
  | .negInf => .posInf

/-- JavaScript subtraction (`a - b`). -/
def jsSub (a b : JSNum) : JSNum := jsAdd a (jsNeg b)

/-- `Math.max`: NaN-propagating maximum. -/
def jsMax : JSNum → JSNum → JSNum
  | .nan, _ => .nan
  | _, .nan => .nan
  | .posInf, _ => .posInf
  | _, .posInf => .posInf
  | .negInf, b => b
  | a, .negInf => a
  | .num a, .num b => .num (max a b)

/-- JavaScript `<`: false whenever either operand is NaN. -/
def jsLt : JSNum → JSNum → Bool
  | .nan, _ => false
  | _, .nan => false
  | .num a, .num b => decide (a < b)
  | .num _, .posInf => true
  | .num _, .negInf => false
  | .posInf, _ => false
  | .negInf, .negInf => false
  | .negInf, _ => true

/-- CPU counter fields of `KernelMetrics` (kernel monitoring service). -/
structure KernelCpuMetrics where
  cycles : JSNum
  instructions : JSNum
  cache_misses : JSNum
  branch_misses : JSNum
  cpu_usage_percent : JSNum
  frequency_mhz : JSNum
  temperature_celsius : Option JSNum
  power_watts : Option JSNum
deriving DecidableEq

/-- Memory counter fields of `KernelMetrics`. -/
structure KernelMemoryMetrics where
  page_faults : JSNum
  page_ins : JSNum
  page_outs : JSNum
  swap_ins : JSNum
  swap_outs : JSNum
  memory_pressure : JSNum
  numa_hits : JSNum
  numa_misses : JSNum
deriving DecidableEq

/-- Latency fields of `KernelMetrics` (nanoseconds). -/
structure KernelLatencyMetrics where
  collection_latency_ns : JSNum
  processing_latency_ns : JSNum
  total_latency_ns : JSNum
deriving DecidableEq

/-- The raw counter snapshot consumed by the derived-analytics functions.
Disk and network sub-records are not read by any analyzed function and are
omitted from the embedding. -/
structure KernelMetrics where
  timestamp : JSNum
  cpu : KernelCpuMetrics
  memory : KernelMemoryMetrics
  latency : KernelLatencyMetrics
deriving DecidableEq

/-- Result record of `analyzeCpuPerformance`. -/
structure CpuPerformanceAnalysis where
  ipc : JSNum
  cacheMissRate : JSNum
  branchMissRate : JSNum
  efficiency : JSNum
deriving DecidableEq

/-- `KernelMonitoringService.analyzeCpuPerformance`: unguarded ratios of raw
CPU counters, `efficiency = Math.max(0, 1 - cacheMissRate - branchMissRate)`. -/
def analyzeCpuPerformance (metrics : KernelMetrics) : CpuPerformanceAnalysis :=
  let ipc := jsDiv metrics.cpu.instructions metrics.cpu.cycles
  let cacheMissRate := jsDiv metrics.cpu.cache_misses metrics.cpu.instructions
  let branchMissRate := jsDiv metrics.cpu.branch_misses metrics.cpu.instructions
  let efficiency := jsMax (.num 0) (jsSub (jsSub (.num 1) cacheMissRate) branchMissRate)
  ⟨ipc, cacheMissRate, branchMissRate, efficiency⟩

/-- Result record of `analyzeMemoryPressure`. -/
structure MemoryPressureAnalysis where
  pressure : JSNum
  swapActivity : JSNum
  numaEfficiency : JSNum
  isHealthy : Bool
deriving DecidableEq

/-- `KernelMonitoringService.analyzeMemoryPressure`: swap activity per 1000,
unguarded NUMA hit ratio, and the `pressure < 0.5 && swapActivity < 0.1`
health flag. -/
def analyzeMemoryPressure (metrics : KernelMetrics) : MemoryPressureAnalysis :=
  let pressure := metrics.memory.memory_pressure
  let swapActivity := jsDiv (jsAdd metrics.memory.swap_ins metrics.memory.swap_outs) (.num 1000)
  let numaEfficiency :=
    jsDiv metrics.memory.numa_hits (jsAdd metrics.memory.numa_hits metrics.memory.numa_misses)
  let isHealthy := jsLt pressure (.num (1/2)) && jsLt swapActivity (.num (1/10))
  ⟨pressure, swapActivity, numaEfficiency, isHealthy⟩

/-- A `KernelMetrics` snapshot whose counters are all zero: no instructions
retired, no cycles, no NUMA traffic. -/
def zeroCounterMetrics : KernelMetrics :=
  { timestamp := .num 0
    cpu := ⟨.num 0, .num 0, .num 0, .num 0, .num 0, .num 0, none, none⟩
    memory := ⟨.num 0, .num 0, .num 0, .num 0, .num 0, .num 0, .num 0, .num 0⟩
    latency := ⟨.num 0, .num 0, .num 0⟩ }

/-- State of `CircularBuffer<T>` from `src/services/highPerfService.ts`:
a pre-allocated backing array (JS array slots may be unset, hence
`Option T`), head/tail indices, current size and fixed capacity. -/
structure CircularBuffer (T : Type) where
  buffer : List (Option T)
  head : Nat
  tail : Nat
  size : Nat
  capacity : Nat
deriving DecidableEq

/-- `new CircularBuffer(capacity)`: an all-unset backing array. -/
def CircularBuffer.ofCapacity (T : Type) (capacity : Nat) : CircularBuffer T :=
  { buffer := List.replicate capacity none
    head := 0
    tail := 0
    size := 0
    capacity := capacity }

/-- `push(item)`: returns `false` without mutating when full, otherwise
writes at `head`, advances `head` modulo capacity and increments `size`. -/
def CircularBuffer.push (b : CircularBuffer T) (item : T) : Bool × CircularBuffer T :=
  if b.capacity ≤ b.size then
    (false, b)
  else
    (true,
      { b with
        buffer := b.buffer.set b.head (some item)
        head := (b.head + 1) % b.capacity
        size := b.size + 1 })

/-- `pop()`: removes and returns the oldest item, or `none` when empty. -/
def CircularBuffer.pop (b : CircularBuffer T) : Option T × CircularBuffer T :=
  if b.size = 0 then
    (none, b)
  else
    (b.buffer.getD b.tail none,
      { b with tail := (b.tail + 1) % b.capacity, size := b.size - 1 })

/-- `getSize()`. -/
def CircularBuffer.getSize (b : CircularBuffer T) : Nat := b.size

/-- Loop body of `toArray()`: read `count` slots starting at index
`current`, wrapping modulo `cap`. -/
def toArrayAux (buf : List (Option T)) (cap : Nat) : Nat → Nat → List (Option T)
  | _, 0 => []
  | current, Nat.succ n => buf.getD current none :: toArrayAux buf cap ((current + 1) % cap) n

/-- `toArray()`: snapshots `size` slots starting at `tail`; the method only
reads fields, so the state component is returned unchanged. -/
def CircularBuffer.toArray (b : CircularBuffer T) : List (Option T) × CircularBuffer T :=
  (toArrayAux b.buffer b.capacity b.tail b.size, b)

/-- Push a whole list in order, collecting each push's success flag. -/
def CircularBuffer.pushAll (b : CircularBuffer T) : List T → List Bool × CircularBuffer T
  | [] => ([], b)
  | v :: rest =>
      let r1 := b.push v
      let r2 := r1.2.pushAll rest
      (r1.1 :: r2.1, r2.2)

/-- Buffer state after pushing `pre` (in order) into a fresh buffer of
capacity `C`, assuming `pre.length ≤ C`: the backing array holds the pushed
values followed by unset slots. -/
def CircularBuffer.afterPushes (pre : List T) (C : Nat) : CircularBuffer T :=
  { buffer := pre.map some ++ List.replicate (C - pre.length) none
    head := pre.length % C
    tail := 0
    size := pre.length
    capacity := C }

/-- `PerformanceMonitor`'s metric store: a JS `Map<string, number[]>`,
embedded as an insertion-ordered association list. -/
abbrev Metrics := List (String × List ℚ)

/-- `Map.has(k)`. -/
def mapHas (m : Metrics) (k : String) : Bool := m.any (fun p => p.1 == k)

/-- `Map.get(k)`. -/
def mapGet (m : Metrics) (k : String) : Option (List ℚ) :=
  (m.find? (fun p => p.1 == k)).map (fun p => p.2)

/-- `Map.set(k, v)`: updates an existing key in place (keeping insertion
order), otherwise appends a new entry. -/
def mapSet (m : Metrics) (k : String) (v : List ℚ) : Metrics :=
  if mapHas m k then m.map (fun p => if p.1 == k then (k, v) else p) else m ++ [(k, v)]

/-- `maxHistory` field of `PerformanceMonitor`. -/
def maxHistory : Nat := 1000

/-- `recordMetric(name, value)`: create an empty history if absent, push
the value, then `shift()` once when the length exceeds `maxHistory`. -/
def recordMetric (m : Metrics) (name : String) (value : ℚ) : Metrics :=
  let m1 := if mapHas m name then m else mapSet m name []
  let h := (mapGet m1 name).getD []
  let h2 := h ++ [value]
  let h3 := if maxHistory < h2.length then h2.drop 1 else h2
  mapSet m1 name h3

/-- History currently retained for `name` (empty when absent). -/
def histOf (m : Metrics) (name : String) : List ℚ := (mapGet m name).getD []

/-- An operation against a `PerformanceMonitor`: a direct `recordMetric`
call, or a `startTimer(name)` whose stop function ran with the given start
and stop clock readings (recording `stop - start`). -/
inductive PMOp where
  | record (name : String) (value : ℚ)
  | timer (name : String) (start stop : ℚ)

/-- Apply one operation to the store. -/
def applyPMOp (m : Metrics) : PMOp → Metrics
  | .record name value => recordMetric m name value
  | .timer name start stop => recordMetric m name (stop - start)

/-- Run a sequence of operations against a fresh `PerformanceMonitor`. -/
def applyPMOps (ops : List PMOp) : Metrics := ops.foldl applyPMOp []

/-- `getAverage(name)`: 0 for an absent or empty history, else sum/length. -/
def getAverage (m : Metrics) (name : String) : ℚ :=
  match mapGet m name with
  | none => 0
  | some h => if h.length = 0 then 0 else h.sum / h.length

/-- `getMin(name)`: 0 for an absent or empty history, else `Math.min`. -/
def getMin (m : Metrics) (name : String) : ℚ :=
  match mapGet m name with
  | none => 0
  | some [] => 0
  | some (x :: xs) => xs.foldl min x

/-- `getMax(name)`: 0 for an absent or empty history, else `Math.max`. -/
def getMax (m : Metrics) (name : String) : ℚ :=
  match mapGet m name with
  | none => 0
  | some [] => 0
  | some (x :: xs) => xs.foldl max x

/-- One entry of the `getMetrics()` snapshot. -/
structure MetricStats where
  avg : ℚ
  minVal : ℚ
  maxVal : ℚ
  count : Nat
deriving DecidableEq

/-- `getMetrics()`: one `{avg, min, max, count}` record per tracked name
whose history is non-empty. -/
def getMetrics (m : Metrics) : List (String × MetricStats) :=
  m.filterMap (fun p =>
    if 0 < p.2.length then
      some (p.1, ⟨getAverage m p.1, getMin m p.1, getMax m p.1, p.2.length⟩)
    else none)

/-- Event-loop state for one `throttle(func, delay)` instance. `timers` are
the live scheduled callbacks `(id, fireTime, args)`; `fired` logs every
invocation of `func` as `(timer id or none for an immediate call, time,
args)`; `cancelled` logs ids whose live timer was superseded. -/
structure ThrottleState (A : Type) where
  now : Nat
  lastExecTime : Nat
  timeoutId : Option Nat
  timers : List (Nat × Nat × A)
  nextId : Nat
  fired : List (Option Nat × Nat × A)
  cancelled : List Nat
deriving DecidableEq

/-- Fire every live timer due at or before time `t`, in list order. A firing
deferred callback of `throttle` runs `func(...args)` and sets
`lastExecTime = Date.now()` (its fire time). -/
def throttleFireAux (t : Nat) : List (Nat × Nat × A) → ThrottleState A → ThrottleState A
  | [], s => s
  | tm :: rest, s =>
      if tm.2.1 ≤ t then
        throttleFireAux t rest
          { s with
            fired := s.fired ++ [(some tm.1, tm.2.1, tm.2.2)]
            lastExecTime := tm.2.1 }
      else
        throttleFireAux t rest { s with timers := s.timers ++ [tm] }

/-- Advance the event loop to time `t`, firing due timers. -/
def throttleFireDue (t : Nat) (s : ThrottleState A) : ThrottleState A :=
  throttleFireAux t s.timers { s with timers := [] }

/-- One call of the throttled wrapper at time `t`: fire immediately when
`t - lastExecTime > delay`, otherwise `clearTimeout` the stored handle and
schedule the deferred invocation `delay - (t - lastExecTime)` later. -/
def throttleCall (delay : Nat) (s0 : ThrottleState A) (t : Nat) (args : A) : ThrottleState A :=
  let s := { throttleFireDue t s0 with now := t }
  if delay < t - s.lastExecTime then
    { s with fired := s.fired ++ [(none, t, args)], lastExecTime := t }
  else
    let s2 :=
      match s.timeoutId with
      | some id =>
          if s.timers.any (fun tm => tm.1 == id) then
            { s with
              timers := s.timers.filter (fun tm => tm.1 != id)
              cancelled := s.cancelled ++ [id] }
          else s
      | none => s
    { s2 with
      timers := s2.timers ++ [(s2.nextId, t + (delay - (t - s2.lastExecTime)), args)]
      timeoutId := some s2.nextId
      nextId := s2.nextId + 1 }

/-- Fresh throttle wrapper state (`timeoutId = null`, `lastExecTime = 0`). -/
def throttleInit (A : Type) : ThrottleState A :=
  { now := 0
    lastExecTime := 0
    timeoutId := none
    timers := []
    nextId := 0
    fired := []
    cancelled := [] }

/-- Run a list of calls given as `(delta since previous call, args)`. -/
def runThrottle (delay : Nat) (calls : List (Nat × A)) : ThrottleState A :=
  calls.foldl (fun s c => throttleCall delay s (s.now + c.1) c.2) (throttleInit A)

/-- Event-loop state for one `debounce(func, delay)` instance. -/
structure DebounceState (A : Type) where
  now : Nat
  timeoutId : Option Nat
  timers : List (Nat × Nat × A)
  nextId : Nat
  fired : List (Nat × A)
deriving DecidableEq

/-- Fire every live debounce timer due at or before time `t`. -/
def debounceFireAux (t : Nat) : List (Nat × Nat × A) → DebounceState A → DebounceState A
  | [], s => s
  | tm :: rest, s =>
      if tm.2.1 ≤ t then
        debounceFireAux t rest { s with fired := s.fired ++ [(tm.2.1, tm.2.2)] }
      else
        debounceFireAux t rest { s with timers := s.timers ++ [tm] }

/-- Advance the debounce event loop to time `t`. -/
def debounceFireDue (t : Nat) (s : DebounceState A) : DebounceState A :=
  debounceFireAux t s.timers { s with timers := [] }

/-- One call of the debounced wrapper at time `t`: `clearTimeout` any stored
handle, then schedule `func` to run `delay` later with these arguments. -/
def debounceCall (delay : Nat) (s0 : DebounceState A) (t : Nat) (args : A) : DebounceState A :=
  let s := { debounceFireDue t s0 with now := t }
  let s2 :=
    match s.timeoutId with
    | some id => { s with timers := s.timers.filter (fun tm => tm.1 != id) }
    | none => s
  { s2 with
    timers := s2.timers ++ [(s2.nextId, t + delay, args)]
    timeoutId := some s2.nextId
    nextId := s2.nextId + 1 }

/-- Fresh debounce wrapper state. -/
def debounceInit (A : Type) : DebounceState A :=
  { now := 0, timeoutId := none, timers := [], nextId := 0, fired := [] }

/-- Run a list of calls given as `(delta since previous call, args)`. -/
def runDebounce (delay : Nat) (calls : List (Nat × A)) : DebounceState A :=
  calls.foldl (fun s c => debounceCall delay s (s.now + c.1) c.2) (debounceInit A)

/-- Every invocation the debounced `func` ever performs: those already fired
plus the still-scheduled timers, which fire at their scheduled times once
the loop goes quiescent. -/
def debounceFlush (s : DebounceState A) : List (Nat × A) :=
  s.fired ++ s.timers.map (fun tm => (tm.2.1, tm.2.2))

/-- State of one mounted `useThrottledMetrics(metrics, throttleMs)` hook:
the published state value (`null` is `none`), `lastUpdateRef`, the live
pending `setTimeout` as `(fireTime, captured metrics)`, and the log of all
`setThrottledMetrics` calls `(time, value)` — the deliveries. -/
structure HookState (M : Type) where
  now : Nat
  throttled : Option M
  lastUpdate : Nat
  pending : Option (Nat × M)
  log : List (Nat × Option M)
deriving DecidableEq

/-- Hook state right after the initial render: `useState(metrics)` seeds the
published value with the mount-time input; no effect has run yet. -/
def hookInit (m0 : Option M) : HookState M :=
  { now := 0, throttled := m0, lastUpdate := 0, pending := none, log := [] }

/-- Process one change of the hook's input to value `m` at `delta`
milliseconds after the previous event. The live timer fires first if due
(it runs `setThrottledMetrics` and updates `lastUpdateRef` at its fire
time); then React runs the previous effect's cleanup, cancelling any
pending timeout; then the effect body runs: a `null` input publishes
`null` at once, a non-null input publishes immediately when
`now - lastUpdate >= throttleMs` and otherwise schedules a deferred
publish `throttleMs - (now - lastUpdate)` later. -/
def hookEvent (throttleMs : Nat) (s0 : HookState M) (ev : Nat × Option M) : HookState M :=
  let t := s0.now + ev.1
  let s1 :=
    match s0.pending with
    | some pd =>
        if pd.1 ≤ t then
          { s0 with
            throttled := some pd.2
            lastUpdate := pd.1
            pending := none
            log := s0.log ++ [(pd.1, some pd.2)] }
        else s0
    | none => s0
  let s := { s1 with now := t, pending := none }
  match ev.2 with
  | none => { s with throttled := none, log := s.log ++ [(t, none)] }
  | some v =>
      if throttleMs ≤ t - s.lastUpdate then
        { s with throttled := some v, lastUpdate := t, log := s.log ++ [(t, some v)] }
      else
        { s with pending := some (t + (throttleMs - (t - s.lastUpdate)), v) }

/-- Run a sequence of input changes against a mounted hook. -/
def runHook (throttleMs : Nat) (s : HookState M) (events : List (Nat × Option M)) : HookState M :=
  events.foldl (hookEvent throttleMs) s

/-- All deliveries the hook ever performs from state `s` if no further input
arrives: the log so far plus the pending scheduled delivery, which fires at
its scheduled time. -/
def hookFlush (s : HookState M) : List (Nat × Option M) :=
  match s.pending with
  | some pd => s.log ++ [(pd.1, some pd.2)]
  | none => s.log

/-- A point of the `useMetricsHistory` rolling series. -/
structure MetricPoint where
  time : String
  value : ℚ
deriving DecidableEq

/-- `MAX_HISTORY_POINTS` from `src/hooks/useMetricsHistory.ts`. -/
def MAX_HISTORY_POINTS : Nat := 60

/-- One effect run of `useMetricsHistory`: append the new point and keep the
last `MAX_HISTORY_POINTS` entries (`[...history, point].slice(-60)`). -/
def appendPoint (history : List MetricPoint) (p : MetricPoint) : List MetricPoint :=
  let h2 := history ++ [p]
  h2.drop (h2.length - MAX_HISTORY_POINTS)

/-- Invariant of reachable throttle states: at most one live timer, and when
one exists it is the one `timeoutId` stores, scheduled at
`lastExecTime + delay`, not yet due, fresh, never cancelled and never fired;
cancelled ids never appear among fired invocations. -/
def ThrottleInv (delay : Nat) (s : ThrottleState A) : Prop :=
  s.lastExecTime ≤ s.now ∧
  (∀ tm ∈ s.timers, s.timeoutId = some tm.1 ∧ tm.2.1 = s.lastExecTime + delay ∧
      s.now ≤ tm.2.1 ∧ tm.1 < s.nextId ∧ tm.1 ∉ s.cancelled ∧
      ∀ e ∈ s.fired, e.1 ≠ some tm.1) ∧
  s.timers.length ≤ 1 ∧
  (∀ id ∈ s.cancelled, (∀ e ∈ s.fired, e.1 ≠ some id) ∧ id < s.nextId) ∧
  (∀ e ∈ s.fired, ∀ i, e.1 = some i → i < s.nextId)

theorem appendPoint_eq (h : List MetricPoint) (p : MetricPoint) :
    appendPoint h p = (h ++ [p]).drop ((h ++ [p]).length - 60) := rfl

theorem lastN_append_lastN (a b : List MetricPoint) :
    ((a.drop (a.length - 60)) ++ b).drop (((a.drop (a.length - 60)) ++ b).length - 60) =
      (a ++ b).drop ((a ++ b).length - 60) := by
  rcases le_or_lt a.length 60 with ha | ha
  · simp [Nat.sub_eq_zero_of_le ha]
  · rw [List.drop_append_eq_append_drop, List.drop_append_eq_append_drop, List.drop_drop]
    simp only [List.length_append, List.length_drop]
    congr 1
    · congr 1
      omega
    · congr 1
      omega

theorem foldl_appendPoint (ps : List MetricPoint) :
    ∀ h : List MetricPoint,
      ps.foldl appendPoint (h.drop (h.length - 60)) = (h ++ ps).drop ((h ++ ps).length - 60) := by
  induction ps with
  | nil => intro h; simp
  | cons p rest ih =>
      intro h
      rw [List.foldl_cons, appendPoint_eq, lastN_append_lastN]
      have e := ih (h ++ [p])
      rw [List.append_assoc] at e
      simpa using e

/-- C5: appending 65 points into the `useMetricsHistory` rolling series
(window 60, starting empty) leaves exactly the last 60 appended points in
append order (oldest first), and for every append sequence the retained
length never exceeds 60. -/
theorem claim5_rolling_series :
    (∀ ps : List MetricPoint, ps.length = 65 → ps.foldl appendPoint [] = ps.drop 5) ∧
    (∀ ps : List MetricPoint, (ps.foldl appendPoint []).length ≤ 60) := by
  have key : ∀ ps : List MetricPoint, ps.foldl appendPoint [] = ps.drop (ps.length - 60) := by
    intro ps
    have e := foldl_appendPoint ps []
    simpa using e
  refine ⟨fun ps hl => ?_, fun ps => ?_⟩
  · rw [key, hl]
  · rw [key]
    simp
    omega

/-- Witness for C5 at a concrete 65-point sequence. -/
theorem claim5_witness :
    ((List.replicate 65 (MetricPoint.mk "x" 7)).length = 65) ∧
    (List.replicate 65 (MetricPoint.mk "x" 7)).foldl appendPoint [] =
      (List.replicate 65 (MetricPoint.mk "x" 7)).drop 5 :=
  ⟨by simp, claim5_rolling_series.1 _ (by simp)⟩

theorem push_afterPushes (pre : List T) (v : T) (C : Nat) (h : pre.length < C) :
    (CircularBuffer.afterPushes pre C).push v = (true, CircularBuffer.afterPushes (pre ++ [v]) C) := by
  have hmod : pre.length % C = pre.length := Nat.mod_eq_of_lt h
  have hrep : C - pre.length = (C - (pre.length + 1)) + 1 := by omega
  simp only [CircularBuffer.push, CircularBuffer.afterPushes, hmod]
  rw [if_neg (by simp; omega)]
  simp only [Prod.mk.injEq, CircularBuffer.mk.injEq, List.length_append, List.length_cons,
    List.length_nil, List.map_append, List.map_cons, List.map_nil]
  refine ⟨trivial, ?_, ?_, trivial, ?_, trivial⟩
  · rw [List.set_append, if_neg (by simp), hrep, List.replicate_succ]
    simp
  · simp [hmod]
  · simp

theorem pushAll_afterPushes (rest : List T) : ∀ (pre : List T) (C : Nat),
    pre.length + rest.length ≤ C →
    (CircularBuffer.afterPushes pre C).pushAll rest =
      (List.replicate rest.length true, CircularBuffer.afterPushes (pre ++ rest) C) := by
  induction rest with
  | nil => intro pre C _; simp [CircularBuffer.pushAll]
  | cons v rs ih =>
      intro pre C h
      have hlt : pre.length < C := by simp [List.length_cons] at h; omega
      rw [CircularBuffer.pushAll]
      rw [push_afterPushes pre v C hlt]
      have e := ih (pre ++ [v]) C (by simp at h ⊢; omega)
      rw [e]
      simp [List.replicate_succ]

theorem ofCapacity_eq_afterPushes (T : Type) (C : Nat) :
    CircularBuffer.ofCapacity T C = CircularBuffer.afterPushes [] C := by
  simp [CircularBuffer.ofCapacity, CircularBuffer.afterPushes]

theorem toArrayAux_no_wrap (buf : List (Option T)) (cap : Nat) (hlen : buf.length = cap) :
    ∀ (n current : Nat), current + n ≤ cap →
      toArrayAux buf cap current n = (buf.drop current).take n := by
  intro n
  induction n with
  | zero => intro current _; simp [toArrayAux]
  | succ m ih =>
      intro current hcn
      have hc : current < cap := by omega
      have hcb : current < buf.length := by omega
      simp only [toArrayAux]
      have hd : buf.drop current = buf.getD current none :: buf.drop (current + 1) := by
        rw [List.drop_eq_getElem_cons hcb, List.getD_eq_getElem?_getD,
          List.getElem?_eq_getElem hcb]
        simp
      rw [hd, List.take_succ_cons]
      congr 1
      by_cases hcc : current + 1 < cap
      · rw [Nat.mod_eq_of_lt hcc]
        exact ih (current + 1) (by omega)
      · have hm : m = 0 := by omega
        subst hm
        simp [toArrayAux]

theorem toArray_afterPushes (vs : List T) (C : Nat) (h : vs.length ≤ C) :
    (CircularBuffer.afterPushes vs C).toArray = (vs.map some, CircularBuffer.afterPushes vs C) := by
  unfold CircularBuffer.toArray
  refine Prod.ext ?_ rfl
  show toArrayAux (CircularBuffer.afterPushes vs C).buffer (CircularBuffer.afterPushes vs C).capacity
      (CircularBuffer.afterPushes vs C).tail (CircularBuffer.afterPushes vs C).size = vs.map some
  simp only [CircularBuffer.afterPushes]
  rw [toArrayAux_no_wrap _ _ (by simp; omega) _ 0 (by omega)]
  rw [List.drop_zero, List.take_append_eq_append_take]
  simp

/-- C3: pushing `N ≤ C` values into a fresh `CircularBuffer` of capacity `C`
succeeds at every push, `getSize` then equals `N`; when `N = C`, the next
push returns `false` and leaves the whole buffer state unchanged. -/
theorem claim3_push_capacity (T : Type) (C : Nat) (vs : List T) (x : T) (h : vs.length ≤ C) :
    ((CircularBuffer.ofCapacity T C).pushAll vs).1 = List.replicate vs.length true ∧
    ((CircularBuffer.ofCapacity T C).pushAll vs).2.getSize = vs.length ∧
    (vs.length = C →
      ((CircularBuffer.ofCapacity T C).pushAll vs).2.push x =
        (false, ((CircularBuffer.ofCapacity T C).pushAll vs).2)) := by
  rw [ofCapacity_eq_afterPushes, pushAll_afterPushes vs [] C (by simpa using h)]
  refine ⟨rfl, by simp [CircularBuffer.getSize, CircularBuffer.afterPushes], fun hful => ?_⟩
  simp [CircularBuffer.push, CircularBuffer.afterPushes, hful]

/-- Witness for C3: capacity 2, pushes `[5, 6]`, then a failing third push. -/
theorem claim3_witness :
    ((CircularBuffer.ofCapacity Nat 2).pushAll [5, 6]).1 = [true, true] ∧
    ((CircularBuffer.ofCapacity Nat 2).pushAll [5, 6]).2.getSize = 2 ∧
    ((CircularBuffer.ofCapacity Nat 2).pushAll [5, 6]).2.push 7 =
      (false, ((CircularBuffer.ofCapacity Nat 2).pushAll [5, 6]).2) := by
  obtain ⟨h1, h2, h3⟩ := claim3_push_capacity Nat 2 [5, 6] 7 (by decide)
  exact ⟨by simpa using h1, h2, h3 rfl⟩

/-- C7: after `N ≤ C` pushes into a fresh `CircularBuffer`, `toArray`
returns exactly the pushed values in insertion order (as the JS array slots
they occupy), and the buffer state after the call is identical to the state
before it. -/
theorem claim7_toArray_snapshot (T : Type) (C : Nat) (vs : List T) (h : vs.length ≤ C) :
    (((CircularBuffer.ofCapacity T C).pushAll vs).2.toArray).1 = vs.map some ∧
    (((CircularBuffer.ofCapacity T C).pushAll vs).2.toArray).2 =
      ((CircularBuffer.ofCapacity T C).pushAll vs).2 := by
  rw [ofCapacity_eq_afterPushes, pushAll_afterPushes vs [] C (by simpa using h)]
  simp only [List.nil_append]
  rw [toArray_afterPushes vs C h]
  exact ⟨rfl, rfl⟩

/-- Witness for C7: capacity 3, pushes `[4, 5]`. -/
theorem claim7_witness :
    (((CircularBuffer.ofCapacity Nat 3).pushAll [4, 5]).2.toArray).1 = [some 4, some 5] ∧
    (((CircularBuffer.ofCapacity Nat 3).pushAll [4, 5]).2.toArray).2 =
      ((CircularBuffer.ofCapacity Nat 3).pushAll [4, 5]).2 := by
  obtain ⟨h1, h2⟩ := claim7_toArray_snapshot Nat 3 [4, 5] (by decide)
  exact ⟨by simpa using h1, h2⟩

theorem find?_replace_same (m : Metrics) (k : String) (v : List ℚ) (hh : mapHas m k = true) :
    (m.map (fun p => if p.1 == k then (k, v) else p)).find? (fun p => p.1 == k) = some (k, v) := by
  induction m with
  | nil => simp [mapHas] at hh
  | cons q rest ih =>
      by_cases hq : (q.1 == k) = true
      · rw [List.map_cons, if_pos hq,
          List.find?_cons_of_pos (p := fun r : String × List ℚ => r.1 == k) _ (by simp)]
      · have hq' : (q.1 == k) = false := by simpa using hq
        rw [List.map_cons, if_neg hq,
          List.find?_cons_of_neg (p := fun r : String × List ℚ => r.1 == k) _ (by simp [hq'])]
        exact ih (by simpa [mapHas, List.any_cons, hq'] using hh)

theorem find?_replace_other (m : Metrics) (k k' : String) (v : List ℚ) (hk : k' ≠ k) :
    (m.map (fun p => if p.1 == k then (k, v) else p)).find? (fun p => p.1 == k') =
      m.find? (fun p => p.1 == k') := by
  induction m with
  | nil => simp
  | cons q rest ih =>
      by_cases hq : (q.1 == k) = true
      · have hqk : q.1 = k := by simpa using hq
        rw [List.map_cons, if_pos hq,
          List.find?_cons_of_neg (p := fun r : String × List ℚ => r.1 == k') _ (by simp [Ne.symm hk]),
          List.find?_cons_of_neg (p := fun r : String × List ℚ => r.1 == k') _ (by simp [hqk, Ne.symm hk])]
        exact ih
      · rw [List.map_cons, if_neg hq]
        by_cases hq2 : (q.1 == k') = true
        · rw [List.find?_cons_of_pos (p := fun r : String × List ℚ => r.1 == k') _ hq2,
            List.find?_cons_of_pos (p := fun r : String × List ℚ => r.1 == k') _ hq2]
        · rw [List.find?_cons_of_neg (p := fun r : String × List ℚ => r.1 == k') _ (by simpa using hq2),
            List.find?_cons_of_neg (p := fun r : String × List ℚ => r.1 == k') _ (by simpa using hq2)]
          exact ih

theorem mapGet_mapSet_same (m : Metrics) (k : String) (v : List ℚ) :
    mapGet (mapSet m k v) k = some v := by
  by_cases hh : mapHas m k
  · simp only [mapSet, if_pos hh, mapGet]
    rw [find?_replace_same m k v hh]
    rfl
  · simp only [mapSet, if_neg hh, mapGet, List.find?_append]
    have hnone : m.find? (fun p => p.1 == k) = none := by
      rw [List.find?_eq_none]
      intro p hp
      simp only [mapHas] at hh
      intro hc
      exact hh (List.any_eq_true.mpr ⟨p, hp, hc⟩)
    rw [hnone]
    rw [List.find?_cons_of_pos (p := fun r : String × List ℚ => r.1 == k) _ (by simp)]
    rfl

theorem mapGet_mapSet_other (m : Metrics) (k k' : String) (v : List ℚ) (hk : k' ≠ k) :
    mapGet (mapSet m k v) k' = mapGet m k' := by
  by_cases hh : mapHas m k
  · simp only [mapSet, if_pos hh, mapGet]
    rw [find?_replace_other m k k' v hk]
  · simp only [mapSet, if_neg hh, mapGet, List.find?_append]
    rw [List.find?_cons_of_neg (p := fun r : String × List ℚ => r.1 == k') _ (by simp [Ne.symm hk])]
    simp

theorem mapGet_eq_none_of_not_has (m : Metrics) (name : String) (hh : ¬ mapHas m name = true) :
    mapGet m name = none := by
  have hfind : m.find? (fun p => p.1 == name) = none := by
    rw [List.find?_eq_none]
    intro p hp hc
    exact hh (List.any_eq_true.mpr ⟨p, hp, hc⟩)
  simp [mapGet, hfind]

theorem histOf_recordMetric_same (m : Metrics) (name : String) (v : ℚ) :
    histOf (recordMetric m name v) name =
      if maxHistory < (histOf m name ++ [v]).length then (histOf m name ++ [v]).drop 1
      else histOf m name ++ [v] := by
  by_cases hh : mapHas m name = true
  · simp only [recordMetric, if_pos hh, histOf]
    rw [mapGet_mapSet_same]
    rfl
  · have hget : mapGet m name = none := mapGet_eq_none_of_not_has m name hh
    simp only [recordMetric, if_neg hh, histOf]
    rw [mapGet_mapSet_same, mapGet_mapSet_same, hget]
    simp

theorem histOf_recordMetric_other (m : Metrics) (name other : String) (v : ℚ)
    (hk : other ≠ name) :
    histOf (recordMetric m name v) other = histOf m other := by
  by_cases hh : mapHas m name = true
  · simp only [recordMetric, if_pos hh, histOf]
    rw [mapGet_mapSet_other _ _ _ _ hk]
  · simp only [recordMetric, if_neg hh, histOf]
    rw [mapGet_mapSet_other _ _ _ _ hk, mapGet_mapSet_other _ _ _ _ hk]

theorem recordMetric_cap (m : Metrics) (hle : ∀ n, (histOf m n).length ≤ maxHistory)
    (name : String) (v : ℚ) :
    ∀ n, (histOf (recordMetric m name v) n).length ≤ maxHistory := by
  intro n
  by_cases he : n = name
  · subst he
    rw [histOf_recordMetric_same]
    split
    · simpa using hle n
    · rename_i hlen
      simp only [List.length_append, List.length_cons, List.length_nil] at hlen ⊢
      omega
  · rw [histOf_recordMetric_other _ _ _ _ he]
    exact hle n

/-- C6: for every sequence of `recordMetric`/timer operations against a
fresh `PerformanceMonitor` the per-name history never exceeds 1000 entries,
and recording into a name whose history holds exactly 1000 entries drops
the oldest entry and appends the new value (FIFO eviction). -/
theorem claim6_history_cap :
    (∀ (ops : List PMOp) (name : String), (histOf (applyPMOps ops) name).length ≤ 1000) ∧
    (∀ (m : Metrics) (name : String) (v : ℚ), (histOf m name).length = 1000 →
      histOf (recordMetric m name v) name = (histOf m name).drop 1 ++ [v]) := by
  constructor
  · have aux : ∀ (ops : List PMOp) (m : Metrics),
        (∀ n, (histOf m n).length ≤ maxHistory) →
        ∀ n, (histOf (ops.foldl applyPMOp m) n).length ≤ maxHistory := by
      intro ops
      induction ops with
      | nil => intro m hm n; exact hm n
      | cons op rest ih =>
          intro m hm n
          rw [List.foldl_cons]
          refine ih (applyPMOp m op) ?_ n
          cases op with
          | record nm vl => exact recordMetric_cap m hm nm vl
          | timer nm t1 t2 => exact recordMetric_cap m hm nm (t2 - t1)
    intro ops name
    exact aux ops [] (fun n => by simp [histOf, mapGet]) name
  · intro m name v hlen
    rw [histOf_recordMetric_same]
    rw [if_pos (by simp [hlen, maxHistory])]
    rw [List.drop_append_eq_append_drop]
    simp [hlen]

/-- Witness for C6 at a name holding exactly 1000 entries. -/
theorem claim6_witness :
    (histOf [("a", List.replicate 1000 (0 : ℚ))] "a").length = 1000 ∧
    histOf (recordMetric [("a", List.replicate 1000 (0 : ℚ))] "a" 7) "a" =
      (histOf [("a", List.replicate 1000 (0 : ℚ))] "a").drop 1 ++ [7] := by
  have hget : mapGet [("a", List.replicate 1000 (0 : ℚ))] "a" = some (List.replicate 1000 0) := by
    simp only [mapGet]
    rw [List.find?_cons_of_pos (p := fun r : String × List ℚ => r.1 == "a") _ (by simp)]
    rfl
  have hlen : (histOf [("a", List.replicate 1000 (0 : ℚ))] "a").length = 1000 := by
    rw [histOf, hget]
    simp only [Option.getD_some, List.length_replicate]
  exact ⟨hlen, claim6_history_cap.2 _ "a" 7 hlen⟩

/-- C9: `getAverage`, `getMin` and `getMax` return 0 (not an error) for a
name that is absent or has an empty history; every entry of `getMetrics`
has `count ≥ 1`; and a name all of whose histories are empty does not appear
in the `getMetrics` snapshot. -/
theorem claim9_empty_aggregates :
    (∀ (m : Metrics) (name : String), (mapGet m name = none ∨ mapGet m name = some []) →
      getAverage m name = 0 ∧ getMin m name = 0 ∧ getMax m name = 0) ∧
    (∀ (m : Metrics), ∀ e ∈ getMetrics m, 1 ≤ e.2.count) ∧
    (∀ (m : Metrics) (name : String), (∀ p ∈ m, p.1 = name → p.2 = []) →
      ∀ e ∈ getMetrics m, e.1 ≠ name) := by
  refine ⟨?_, ?_, ?_⟩
  · intro m name h
    rcases h with h | h <;> simp [getAverage, getMin, getMax, h]
  · intro m e he
    rw [getMetrics, List.mem_filterMap] at he
    obtain ⟨p, hp, hsome⟩ := he
    by_cases hlen : 0 < p.2.length
    · rw [if_pos hlen] at hsome
      injection hsome with h
      subst h
      simpa using hlen
    · rw [if_neg hlen] at hsome
      exact absurd hsome (by simp)
  · intro m name hall e he
    rw [getMetrics, List.mem_filterMap] at he
    obtain ⟨p, hp, hsome⟩ := he
    by_cases hlen : 0 < p.2.length
    · rw [if_pos hlen] at hsome
      injection hsome with h
      subst h
      intro hc
      have hemp := hall p hp hc
      rw [hemp] at hlen
      simp at hlen
    · rw [if_neg hlen] at hsome
      exact absurd hsome (by simp)

/-- Witness for C9 at a never-recorded name. -/
theorem claim9_witness :
    getAverage [("a", [2, 4]), ("b", [])] "c" = 0 ∧
    getMin [("a", [2, 4]), ("b", [])] "c" = 0 ∧
    getMax [("a", [2, 4]), ("b", [])] "c" = 0 :=
  claim9_empty_aggregates.1 _ "c" (Or.inl (by decide))

theorem runHook_burst (tMs : Nat) (rest : List (Nat × M)) :
    ∀ (s : HookState M) (vc : M),
      s.pending = some (s.lastUpdate + tMs, vc) →
      s.lastUpdate ≤ s.now →
      s.now + (rest.map Prod.fst).sum < s.lastUpdate + tMs →
      runHook tMs s (rest.map (fun p => (p.1, some p.2))) =
        { s with
          now := s.now + (rest.map Prod.fst).sum
          pending := some (s.lastUpdate + tMs, (rest.map Prod.snd).getLastD vc) } := by
  induction rest with
  | nil =>
      intro s vc hpend hle hsum
      obtain ⟨snow, sthr, slast, spend, slog⟩ := s
      simp only [HookState.pending] at hpend
      simp [runHook, hpend]
  | cons dv tl ih =>
      intro s vc hpend hle hsum
      obtain ⟨snow, sthr, slast, spend, slog⟩ := s
      simp only [HookState.pending] at hpend
      simp only [HookState.lastUpdate, HookState.now] at hle hsum ⊢
      simp only [List.map_cons, List.sum_cons] at hsum ⊢
      have hnofire : ¬ (slast + tMs ≤ snow + dv.1) := by omega
      have hs1 : hookEvent tMs ⟨snow, sthr, slast, spend, slog⟩ (dv.1, some dv.2) =
          ⟨snow + dv.1, sthr, slast, some (slast + tMs, dv.2), slog⟩ := by
        simp only [hookEvent, hpend]
        rw [if_neg hnofire]
        have houter : ¬ (tMs ≤ snow + dv.1 - slast) := by omega
        rw [if_neg houter]
        have harith : snow + dv.1 + (tMs - (snow + dv.1 - slast)) = slast + tMs := by omega
        simp [harith]
      rw [runHook, List.foldl_cons]
      show runHook tMs (hookEvent tMs ⟨snow, sthr, slast, spend, slog⟩ (dv.1, some dv.2))
          (tl.map (fun p => (p.1, some p.2))) = _
      rw [hs1]
      rw [ih ⟨snow + dv.1, sthr, slast, some (slast + tMs, dv.2), slog⟩ dv.2 rfl
        (by simp; omega) (by simp; omega)]
      simp only [HookState.mk.injEq, List.getLastD_cons, eq_self_iff_true, and_true, true_and]
      omega

theorem runHook_burst_idle (tMs : Nat) (s : HookState M) (d1 : Nat) (v1 : M)
    (rest : List (Nat × M))
    (hpend : s.pending = none)
    (hle : s.lastUpdate ≤ s.now)
    (hsum : s.now + d1 + (rest.map Prod.fst).sum < s.lastUpdate + tMs) :
    runHook tMs s ((d1, some v1) :: rest.map (fun p => (p.1, some p.2))) =
      { s with
        now := s.now + d1 + (rest.map Prod.fst).sum
        pending := some (s.lastUpdate + tMs, (rest.map Prod.snd).getLastD v1) } := by
  obtain ⟨snow, sthr, slast, spend, slog⟩ := s
  simp only [HookState.pending] at hpend
  simp only [HookState.lastUpdate, HookState.now] at hle hsum ⊢
  have hs1 : hookEvent tMs ⟨snow, sthr, slast, spend, slog⟩ (d1, some v1) =
      ⟨snow + d1, sthr, slast, some (slast + tMs, v1), slog⟩ := by
    simp only [hookEvent, hpend]
    have houter : ¬ (tMs ≤ snow + d1 - slast) := by omega
    rw [if_neg houter]
    have harith : snow + d1 + (tMs - (snow + d1 - slast)) = slast + tMs := by omega
    simp [harith]
  rw [runHook, List.foldl_cons]
  show runHook tMs (hookEvent tMs ⟨snow, sthr, slast, spend, slog⟩ (d1, some v1))
      (rest.map (fun p => (p.1, some p.2))) = _
  rw [hs1]
  rw [runHook_burst tMs rest ⟨snow + d1, sthr, slast, some (slast + tMs, v1), slog⟩ v1 rfl
    (by simp; omega) (by simp; omega)]

/-- C2 (amended): for `useThrottledMetrics` with interval 100 ms, a burst of
1000 non-null arrivals spanning at most 50 ms whose first arrival comes less
than 50 ms after the previous delivery (at `lastUpdate`) produces no delivery
during the burst and exactly one delivery afterwards, at
`lastUpdate + 100` — at least 100 ms after the previous delivery (though
possibly less than 100 ms after the burst's first arrival) — carrying the
last-arrived value. -/
theorem claim2_amended (M : Type) (snow : Nat) (sthr : Option M) (slast : Nat)
    (slog : List (Nat × Option M)) (d1 : Nat) (v1 : M) (rest : List (Nat × M))
    (hle : slast ≤ snow)
    (hcount : rest.length = 999)
    (hwin : (rest.map Prod.fst).sum ≤ 50)
    (hstart : snow + d1 + 50 < slast + 100) :
    runHook 100 (⟨snow, sthr, slast, none, slog⟩ : HookState M)
        ((d1, some v1) :: rest.map (fun p => (p.1, some p.2))) =
      ⟨snow + d1 + (rest.map Prod.fst).sum, sthr, slast,
        some (slast + 100, (rest.map Prod.snd).getLastD v1), slog⟩ ∧
    hookFlush (runHook 100 (⟨snow, sthr, slast, none, slog⟩ : HookState M)
        ((d1, some v1) :: rest.map (fun p => (p.1, some p.2)))) =
      slog ++ [(slast + 100, some ((rest.map Prod.snd).getLastD v1))] := by
  have hrun := runHook_burst_idle 100 (⟨snow, sthr, slast, none, slog⟩ : HookState M) d1 v1 rest
    rfl hle (by simp only [HookState.now, HookState.lastUpdate]; omega)
  refine ⟨hrun, ?_⟩
  rw [hrun]
  simp [hookFlush]

theorem getLastD_replicate (n : Nat) (a : Nat) : (List.replicate n a).getLastD a = a := by
  induction n with
  | zero => rfl
  | succ m ih => rw [List.replicate_succ, List.getLastD_cons, ih]

theorem sum_replicate_zero (n : Nat) : (List.replicate n (0 : Nat)).sum = 0 := by
  induction n with
  | zero => rfl
  | succ m ih => rw [List.replicate_succ, List.sum_cons, ih]

/-- C2 counterexample: 1000 arrivals at the same instant (a 50 ms window),
arriving at a quiescent hook, produce two deliveries — an immediate one
carrying the first value at the moment of the first arrival (0 ms, not
≥ 100 ms, after it) and a trailing one 100 ms later — not exactly one. -/
theorem claim2_counterexample :
    hookFlush (runHook 100 (hookInit (some (0 : Nat)))
        ((1000, some 0) :: List.replicate 999 (0, some 1))) =
      [(1000, some 0), (1100, some 1)] ∧
    (hookFlush (runHook 100 (hookInit (some (0 : Nat)))
        ((1000, some 0) :: List.replicate 999 (0, some 1)))).length ≠ 1 := by
  have step1 : hookEvent 100 (hookInit (some (0 : Nat))) (1000, some 0) =
      ⟨1000, some 0, 1000, none, [(1000, some 0)]⟩ := by
    simp [hookEvent, hookInit]
  have hsplit : List.replicate 999 ((0 : Nat), some (1 : Nat)) =
      (0, some 1) :: (List.replicate 998 ((0 : Nat), (1 : Nat))).map (fun p => (p.1, some p.2)) := by
    rw [List.map_replicate, List.replicate_succ]
  have hsum : ((List.replicate 998 ((0 : Nat), (1 : Nat))).map Prod.fst).sum = 0 := by
    rw [List.map_replicate]
    exact sum_replicate_zero 998
  have hlast : ((List.replicate 998 ((0 : Nat), (1 : Nat))).map Prod.snd).getLastD 1 = 1 := by
    rw [List.map_replicate]
    exact getLastD_replicate _ _
  have hburst := runHook_burst_idle 100 (⟨1000, some 0, 1000, none, [(1000, some 0)]⟩ : HookState Nat)
    0 1 (List.replicate 998 ((0 : Nat), (1 : Nat))) rfl le_rfl (by rw [hsum]; decide)
  rw [hsum, hlast] at hburst
  have hrun : runHook 100 (hookInit (some (0 : Nat)))
      ((1000, some 0) :: List.replicate 999 (0, some 1)) =
      ⟨1000, some 0, 1000, some (1100, 1), [(1000, some 0)]⟩ := by
    rw [runHook, List.foldl_cons]
    show runHook 100 (hookEvent 100 (hookInit (some (0 : Nat))) (1000, some 0))
        (List.replicate 999 (0, some 1)) = _
    rw [step1, hsplit, hburst]
  rw [hrun]
  constructor
  · rfl
  · decide

/-- Witness for the amended C2: a 1000-arrival burst 10 ms after a delivery
at time 1000. -/
theorem claim2_witness :
    runHook 100 (⟨1000, some 0, 1000, none, [(1000, some 0)]⟩ : HookState Nat)
        ((10, some 1) :: (List.replicate 999 ((0 : Nat), (2 : Nat))).map (fun p => (p.1, some p.2))) =
      ⟨1000 + 10 + ((List.replicate 999 ((0 : Nat), (2 : Nat))).map Prod.fst).sum, some 0, 1000,
        some (1000 + 100, ((List.replicate 999 ((0 : Nat), (2 : Nat))).map Prod.snd).getLastD 1),
        [(1000, some 0)]⟩ ∧
    hookFlush (runHook 100 (⟨1000, some 0, 1000, none, [(1000, some 0)]⟩ : HookState Nat)
        ((10, some 1) :: (List.replicate 999 ((0 : Nat), (2 : Nat))).map (fun p => (p.1, some p.2)))) =
      [(1000, some 0)] ++ [(1000 + 100,
        some (((List.replicate 999 ((0 : Nat), (2 : Nat))).map Prod.snd).getLastD 1))] :=
  claim2_amended Nat 1000 (some 0) 1000 [(1000, some 0)] 10 1
    (List.replicate 999 ((0 : Nat), (2 : Nat))) le_rfl
    (by rw [List.length_replicate])
    (by rw [List.map_replicate, sum_replicate_zero]; decide)
    (by decide)

/-- C10: when the input of `useThrottledMetrics` becomes null, the hook
publishes null immediately at the arrival time — with no condition on the
throttle interval — cancels any pending scheduled delivery that has not yet
fired, and no further delivery occurs afterwards (the flush delivers
nothing beyond the null). -/
theorem claim10_null_bypass (M : Type) (tMs : Nat) (s : HookState M) (d : Nat)
    (hp : ∀ pd, s.pending = some pd → s.now + d < pd.1) :
    hookEvent tMs s (d, none) =
      { s with
        now := s.now + d
        throttled := none
        pending := none
        log := s.log ++ [(s.now + d, none)] } ∧
    hookFlush (hookEvent tMs s (d, none)) = s.log ++ [(s.now + d, none)] := by
  obtain ⟨snow, sthr, slast, spend, slog⟩ := s
  simp only [HookState.pending, HookState.now, HookState.log] at hp ⊢
  have h1 : hookEvent tMs ⟨snow, sthr, slast, spend, slog⟩ (d, none) =
      ⟨snow + d, none, slast, none, slog ++ [(snow + d, none)]⟩ := by
    cases spend with
    | none => simp [hookEvent]
    | some pd =>
        have hlt := hp pd rfl
        simp only [hookEvent]
        rw [if_neg (by omega)]
  rw [h1]
  exact ⟨rfl, rfl⟩

/-- Witness for C10 with a live pending delivery scheduled for t = 1100. -/
theorem claim10_witness :
    hookEvent 100 (⟨1000, some 5, 950, some (1100, 7), [(950, some 5)]⟩ : HookState Nat)
        (50, none) =
      ⟨1050, none, 950, none, [(950, some 5), (1050, none)]⟩ ∧
    hookFlush (hookEvent 100
        (⟨1000, some 5, 950, some (1100, 7), [(950, some 5)]⟩ : HookState Nat) (50, none)) =
      [(950, some 5), (1050, none)] := by
  have h := claim10_null_bypass Nat 100 ⟨1000, some 5, 950, some (1100, 7), [(950, some 5)]⟩ 50
    (by intro pd hpd
        injection hpd with h2
        rw [← h2]
        decide)
  exact ⟨h.1, h.2⟩

theorem throttleInit_inv (A : Type) (delay : Nat) : ThrottleInv delay (throttleInit A) := by
  simp [ThrottleInv, throttleInit]

theorem cancelled_facts_ext (delay : Nat) (nid0 : Nat) (canc0 : List Nat)
    (fired0 : List (Option Nat × Nat × A)) (extra : Option Nat × Nat × A)
    (hcanc : ∀ id ∈ canc0, (∀ e ∈ fired0, e.1 ≠ some id) ∧ id < nid0)
    (hex : ∀ id ∈ canc0, extra.1 ≠ some id) :
    ∀ id ∈ canc0, (∀ e ∈ fired0 ++ [extra], e.1 ≠ some id) ∧ id < nid0 := by
  intro id hid
  obtain ⟨hf, hb⟩ := hcanc id hid
  refine ⟨?_, hb⟩
  intro e he
  rcases List.mem_append.mp he with he | he
  · exact hf e he
  · rw [List.mem_singleton] at he
    subst he
    exact hex id hid

theorem fired_bound_ext (nid0 : Nat) (fired0 : List (Option Nat × Nat × A))
    (extra : Option Nat × Nat × A)
    (hfbound : ∀ e ∈ fired0, ∀ i, e.1 = some i → i < nid0)
    (hex : ∀ i, extra.1 = some i → i < nid0) :
    ∀ e ∈ fired0 ++ [extra], ∀ i, e.1 = some i → i < nid0 := by
  intro e he
  rcases List.mem_append.mp he with he | he
  · exact hfbound e he
  · rw [List.mem_singleton] at he
    subst he
    exact hex

theorem sched_inv (delay t last0 nid0 : Nat) (canc0 : List Nat)
    (fired0 : List (Option Nat × Nat × A)) (args : A)
    (hle : last0 ≤ t)
    (hnm : ¬ delay < t - last0)
    (hcanc : ∀ id ∈ canc0, (∀ e ∈ fired0, e.1 ≠ some id) ∧ id < nid0)
    (hfbound : ∀ e ∈ fired0, ∀ i, e.1 = some i → i < nid0) :
    ThrottleInv delay (⟨t, last0, some nid0,
      [(nid0, t + (delay - (t - last0)), args)], nid0 + 1, fired0, canc0⟩ : ThrottleState A) := by
  refine ⟨hle, ?_, by simp, ?_, ?_⟩
  · intro tm htmm
    rw [List.mem_singleton] at htmm
    subst htmm
    refine ⟨rfl, by simp only; omega, by simp only; omega, by simp only; omega, ?_, ?_⟩
    · intro hmem
      exact absurd (hcanc nid0 hmem).2 (by omega)
    · intro e he hei
      have := hfbound e he nid0 hei
      omega
  · intro id hid
    obtain ⟨hf, hb⟩ := hcanc id hid
    refine ⟨hf, ?_⟩
    show id < nid0 + 1
    omega
  · intro e he i hei
    have := hfbound e he i hei
    show i < nid0 + 1
    omega

theorem throttleCall_preserve (delay : Nat) (s : ThrottleState A) (t : Nat) (args : A)
    (hinv : ThrottleInv delay s) (ht : s.now ≤ t) :
    ThrottleInv delay (throttleCall delay s t args) ∧
    ∀ tm ∈ s.timers, tm ∉ (throttleCall delay s t args).timers := by
  obtain ⟨now0, last0, tid0, timers0, nid0, fired0, canc0⟩ := s
  obtain ⟨hle, htm, hlen1, hcanc, hfbound⟩ := hinv
  simp only [ThrottleState.now, ThrottleState.lastExecTime, ThrottleState.timeoutId,
    ThrottleState.timers, ThrottleState.nextId, ThrottleState.fired,
    ThrottleState.cancelled] at hle htm hlen1 hcanc hfbound ht ⊢
  cases timers0 with
  | nil =>
      have hfd : throttleFireDue t (⟨now0, last0, tid0, [], nid0, fired0, canc0⟩ : ThrottleState A) =
          ⟨now0, last0, tid0, [], nid0, fired0, canc0⟩ := rfl
      simp only [throttleCall, hfd]
      by_cases himm : delay < t - last0
      · rw [if_pos himm]
        refine ⟨?_, by simp⟩
        exact ⟨le_rfl, by simp, by simp,
          cancelled_facts_ext delay nid0 canc0 fired0 (none, t, args) hcanc (by simp),
          fired_bound_ext nid0 fired0 (none, t, args) hfbound (by simp)⟩
      · rw [if_neg himm]
        cases tid0 with
        | none =>
            exact ⟨sched_inv delay t last0 nid0 canc0 fired0 args (by omega) himm hcanc hfbound,
              by simp⟩
        | some id0 =>
            exact ⟨sched_inv delay t last0 nid0 canc0 fired0 args (by omega) himm hcanc hfbound,
              by simp⟩
  | cons tm rest =>
      cases rest with
      | cons tm2 rest2 => simp at hlen1
      | nil =>
          obtain ⟨htid, hft, hnowle, hidlt, hncanc, hnfired⟩ := htm tm (by simp)
          by_cases hfire : tm.2.1 ≤ t
          · have hfd : throttleFireDue t
                (⟨now0, last0, tid0, [tm], nid0, fired0, canc0⟩ : ThrottleState A) =
                ⟨now0, tm.2.1, tid0, [], nid0,
                  fired0 ++ [(some tm.1, tm.2.1, tm.2.2)], canc0⟩ := by
              simp only [throttleFireDue, throttleFireAux, if_pos hfire]
            simp only [throttleCall, hfd]
            have hcanc2 : ∀ id ∈ canc0,
                (∀ e ∈ fired0 ++ [(some tm.1, tm.2.1, tm.2.2)], e.1 ≠ some id) ∧ id < nid0 :=
              cancelled_facts_ext delay nid0 canc0 fired0 _ hcanc
                (by intro id hid
                    simp only [ne_eq, Option.some.injEq]
                    intro hteq
                    exact hncanc (hteq ▸ hid))
            have hfbound2 : ∀ e ∈ fired0 ++ [(some tm.1, tm.2.1, tm.2.2)],
                ∀ i, e.1 = some i → i < nid0 :=
              fired_bound_ext nid0 fired0 _ hfbound
                (by intro i hi
                    simp only [Option.some.injEq] at hi
                    omega)
            by_cases himm : delay < t - tm.2.1
            · rw [if_pos himm]
              refine ⟨?_, by simp⟩
              exact ⟨le_rfl, by simp, by simp,
                cancelled_facts_ext delay nid0 canc0 _ (none, t, args) hcanc2 (by simp),
                fired_bound_ext nid0 _ (none, t, args) hfbound2 (by simp)⟩
            · rw [if_neg himm, htid]
              refine ⟨sched_inv delay t tm.2.1 nid0 canc0 _ args (by omega) himm
                hcanc2 hfbound2, ?_⟩
              intro tmx htmx
              rw [List.mem_singleton] at htmx
              subst htmx
              show tmx ∉ [(nid0, t + (delay - (t - tmx.2.1)), args)]
              rw [List.mem_singleton]
              intro hcontra
              exact absurd (congrArg Prod.fst hcontra) (by simp only; omega)
          · have hfd : throttleFireDue t
                (⟨now0, last0, tid0, [tm], nid0, fired0, canc0⟩ : ThrottleState A) =
                ⟨now0, last0, tid0, [tm], nid0, fired0, canc0⟩ := by
              simp only [throttleFireDue, throttleFireAux, if_neg hfire]
              rfl
            simp only [throttleCall, hfd]
            have himm : ¬ delay < t - last0 := by omega
            rw [if_neg himm]
            rw [htid]
            have hany : (([tm] : List (Nat × Nat × A)).any (fun tmx => tmx.1 == tm.1)) = true := by
              simp
            have hfil : (([tm] : List (Nat × Nat × A)).filter (fun tmx => tmx.1 != tm.1)) = [] := by
              simp
            simp only [hany, hfil, if_true, if_pos]
            have hcanc2 : ∀ id ∈ canc0 ++ [tm.1],
                (∀ e ∈ fired0, e.1 ≠ some id) ∧ id < nid0 := by
              intro id hid
              rcases List.mem_append.mp hid with hid | hid
              · exact hcanc id hid
              · rw [List.mem_singleton] at hid
                subst hid
                exact ⟨hnfired, hidlt⟩
            refine ⟨sched_inv delay t last0 nid0 (canc0 ++ [tm.1]) fired0 args (by omega) himm
              hcanc2 hfbound, ?_⟩
            intro tmx htmx
            rw [List.mem_singleton] at htmx
            subst htmx
            simp only [List.nil_append, List.mem_singleton]
            intro hcontra
            exact absurd (congrArg Prod.fst hcontra) (by simp only; omega)

theorem runThrottle_foldl_inv (delay : Nat) (calls : List (Nat × A)) :
    ∀ (s : ThrottleState A), ThrottleInv delay s →
      ThrottleInv delay
        (calls.foldl (fun s c => throttleCall delay s (s.now + c.1) c.2) s) := by
  induction calls with
  | nil => intro s hs; exact hs
  | cons c rest ih =>
      intro s hs
      rw [List.foldl_cons]
      exact ih _ (throttleCall_preserve delay s (s.now + c.1) c.2 hs (by omega)).1

theorem runThrottle_inv (delay : Nat) (calls : List (Nat × A)) :
    ThrottleInv delay (runThrottle delay calls) :=
  runThrottle_foldl_inv delay calls (throttleInit A) (throttleInit_inv A delay)

/-- C4: for every call sequence against a fresh `throttle` wrapper, at most
one deferred timer is ever pending; a superseded (cancelled) deferred
invocation never fires; and a new call always disposes of every previously
pending deferred timer — each timer live before the call is no longer live
after it (it either fired because due, or was cancelled). -/
theorem claim4_throttle_timers :
    (∀ (A : Type) (delay : Nat) (calls : List (Nat × A)),
      (runThrottle delay calls).timers.length ≤ 1) ∧
    (∀ (A : Type) (delay : Nat) (calls : List (Nat × A)) (id : Nat),
      id ∈ (runThrottle delay calls).cancelled →
      ∀ e ∈ (runThrottle delay calls).fired, e.1 ≠ some id) ∧
    (∀ (A : Type) (delay : Nat) (calls : List (Nat × A)) (d : Nat) (args : A),
      ∀ tm ∈ (runThrottle delay calls).timers,
        tm ∉ (runThrottle delay (calls ++ [(d, args)])).timers) := by
  refine ⟨?_, ?_, ?_⟩
  · intro A delay calls
    exact (runThrottle_inv delay calls).2.2.1
  · intro A delay calls id hid
    exact ((runThrottle_inv delay calls).2.2.2.1 id hid).1
  · intro A delay calls d args tm htm
    have hrw : runThrottle delay (calls ++ [(d, args)]) =
        throttleCall delay (runThrottle delay calls)
          ((runThrottle delay calls).now + d) args := by
      rw [runThrottle, List.foldl_append]
      rfl
    rw [hrw]
    exact (throttleCall_preserve delay (runThrottle delay calls)
      ((runThrottle delay calls).now + d) args (runThrottle_inv delay calls)
      (by omega)).2 tm htm

/-- Witness for C4: the timer scheduled by the third call is gone after a
fourth call. -/
theorem claim4_witness :
    ((1 : Nat), (300 : Nat), (2 : Nat)) ∉
      (runThrottle 100 ([(200, 0), (10, 1), (5, 2)] ++ [(1000, 3)])).timers :=
  claim4_throttle_timers.2.2 Nat 100 [(200, 0), (10, 1), (5, 2)] 1000 3 (1, 300, 2) (by decide)

/-- C8: for `debounce` with delay 50, calls at t = 0, 10, 20 produce exactly
one invocation of the wrapped callback, at t = 70, carrying the t = 20
arguments; in particular none fires at t = 50 or t = 60. -/
theorem claim8_debounce (A : Type) (a0 a1 a2 : A) :
    debounceFlush (runDebounce 50 [(0, a0), (10, a1), (10, a2)]) = [(70, a2)] := rfl

/-- C1 (code evaluation at the failing input): on the all-zero counter
snapshot, `analyzeCpuPerformance` and `analyzeMemoryPressure` return NaN for
ipc, cacheMissRate, branchMissRate, efficiency and numaEfficiency — the
divisions `0/0` are not guarded, contradicting the claim that a defined
neutral numeric value is returned. -/
theorem claim1_evaluation :
    (analyzeCpuPerformance zeroCounterMetrics).ipc = JSNum.nan ∧
    (analyzeCpuPerformance zeroCounterMetrics).cacheMissRate = JSNum.nan ∧
    (analyzeCpuPerformance zeroCounterMetrics).branchMissRate = JSNum.nan ∧
    (analyzeCpuPerformance zeroCounterMetrics).efficiency = JSNum.nan ∧
    (analyzeMemoryPressure zeroCounterMetrics).numaEfficiency = JSNum.nan := by
  norm_num [analyzeMemoryPressure, analyzeCpuPerformance, zeroCounterMetrics,
    jsDiv, jsAdd, jsSub, jsNeg, jsMax]
